import Mathlib

/-!
Shallow embedding of the stencil-generation pipeline of
`src/utils/imageProcessor.ts` (the TypeScript image processor of the
`ooo.cooki-stencil-lab` repository), together with theorems checking the
natural-language specification against it.

Conventions of the embedding:
* JavaScript `number` / `Float32Array` values are modelled as exact
  rationals (`ℚ`); all arithmetic appearing in the pipeline (sums,
  products, divisions, comparisons) is exact in `ℚ`.
* A single-channel image plane (`Float32Array` of length `w*h`, indexed
  by `y*w + x`) is modelled as a total function `ℤ → ℤ → ℚ` applied as
  `plane y x`; only the values at `0 ≤ y < h`, `0 ≤ x < w` are ever
  meaningful, and each pass is defined pointwise exactly as the source
  loop computes the destination pixel.
* An RGBA raster (`Uint8ClampedArray`) is modelled as `ℤ → ℤ → Pixel`
  with `Pixel := ℕ × ℕ × ℕ` (the alpha byte is never read or modified by
  the convolution / realism code, so it is omitted).  A store into a
  `Uint8ClampedArray` clamps to `[0,255]` and rounds half-to-even; this
  is modelled faithfully by `u8store`.
-/

namespace StencilLab

/-- `StencilMode` from `src/types.ts`. -/
inductive StencilMode where
  | SOLID : StencilMode
  | HOLLOW : StencilMode
  | REALISM : StencilMode
deriving DecidableEq, Repr

/-- One RGB pixel of a `Uint8ClampedArray` raster (alpha untouched by the
processing code and omitted). -/
abbrev Pixel := ℕ × ℕ × ℕ

/-- A single-channel floating-point plane (`Float32Array` of `w*h` values,
row-major); modelled as a total function on integer coordinates. -/
abbrev Plane := ℤ → ℤ → ℚ

/-- The settings record `StencilSettings` from `src/types.ts`.  The
realism-only fields are optional in the schema (`saturation?`, …); the
processing code tests them against `undefined`, which is modelled with
`Option`.  A `brilliance` field is carried as well: it is read (via
`settings.brilliance || 0`) by the duplicate copy of the processor found
elsewhere in the repository, while `src/utils/imageProcessor.ts` itself
never reads it. -/
structure StencilSettings where
  threshold : ℚ
  thickness : ℤ
  noiseReduction : ℤ
  mode : StencilMode
  isMirrored : Bool
  isMultipleSizes : Bool
  variantCount : ℕ
  minSize : ℚ
  maxSize : ℚ
  showDimensions : Bool
  saturation : Option ℚ
  contrast : Option ℚ
  brightness : Option ℚ
  sharpness : Option ℚ
  brilliance : Option ℚ
deriving DecidableEq, Repr

/-- The helper `clamp(val, min, max) = Math.min(max, Math.max(min, val))`
from `imageProcessor.ts`. -/
def clamp (val lo hi : ℚ) : ℚ := min hi (max lo val)

/-- Round half to even, the rounding applied by a store into a JavaScript
`Uint8ClampedArray`. -/
def roundHalfEven (q : ℚ) : ℤ :=
  let n := ⌊q⌋
  let frac := q - n
  if frac < 1/2 then n
  else if 1/2 < frac then n + 1
  else if Even n then n else n + 1

/-- A store of a float into a `Uint8ClampedArray` slot: clamp to `[0,255]`
then round half to even. -/
def u8store (q : ℚ) : ℕ := (roundHalfEven (clamp q 0 255)).toNat

/-- Index clamped to the valid range `[0, n-1]`; this is the edge extension
performed by `boxBlur`'s accumulator (`Math.max(0, ·)` on the leaving
index, `Math.min(n-1, ·)` on the entering index, and the pre-fill that
repeats the edge pixel). -/
def clampIdx (n i : ℤ) : ℤ := min (n - 1) (max 0 i)

/-- Horizontal pass of `boxBlur` in its clamped-window form: the mean of
the `2*radius+1` samples `source[y][clampIdx w (x - radius + i)]`.  The
source's sliding updates clamp their indices, but its pre-fill does not,
so this form equals the source's accumulator exactly when `radius < w`;
the exact model including the unclamped pre-fill (and its NaN outputs for
`radius ≥ w`) is `boxBlurHFlat` below, and `boxBlurHFlat_eq` proves the
agreement on the `radius < w` regime. -/
def boxBlurH (w : ℤ) (radius : ℕ) (source : Plane) : Plane :=
  fun y x =>
    (∑ i ∈ Finset.range (2 * radius + 1), source y (clampIdx w (x - radius + i)))
      / ((2 * radius + 1 : ℕ) : ℚ)

/-- Vertical pass of `boxBlur` in its clamped-window form; equals the
source's accumulator exactly when `radius < h` (see `boxBlurVFlat` and
`boxBlurFlat_eq` for the exact model and the agreement). -/
def boxBlurV (h : ℤ) (radius : ℕ) (source : Plane) : Plane :=
  fun y x =>
    (∑ i ∈ Finset.range (2 * radius + 1), source (clampIdx h (y - radius + i)) x)
      / ((2 * radius + 1 : ℕ) : ℚ)

/-- `boxBlur(source, w, h, radius)` in clamped-window form: for
`radius < 1` a copy of the input, otherwise the separable horizontal then
vertical clamped-window mean.  Coincides with the program
(`boxBlurFlat`) whenever `radius < w` and `radius < h`. -/
def boxBlur (w h : ℤ) (radius : ℕ) (source : Plane) : Plane :=
  if radius < 1 then source else boxBlurV h radius (boxBlurH w radius source)

/-- A JavaScript floating-point value inside the blur: `some q` is an
ordinary number (exact rational), `none` is NaN — what the accumulator
becomes after `sum += undefined`, the result of an out-of-bounds
`Float32Array` read. -/
abbrev FV := Option ℚ

/-- NaN-propagating addition. -/
def fadd : FV → FV → FV
  | some a, some b => some (a + b)
  | _, _ => none

/-- NaN-propagating subtraction. -/
def fsub : FV → FV → FV
  | some a, some b => some (a - b)
  | _, _ => none

/-- Division of an accumulator value by the window size; `NaN / c = NaN`. -/
def fdiv (a : FV) (c : ℚ) : FV := a.map (fun q => q / c)

/-- A read `buf[k]` of a `Float32Array` of logical size `w*h` whose
`(row, col)` entry is `src row col`: the stored value in bounds; out of
bounds the read yields `undefined`, which turns the accumulator into NaN
at the next `+=`, so it is modelled as NaN directly. -/
def flatGet (w h : ℤ) (src : Plane) (k : ℤ) : FV :=
  if 0 ≤ k ∧ k < w * h then some (src (k / w) (k % w)) else none

/-- Variant of `flatGet` for a buffer whose entries are themselves `FV`
values (the `temp` buffer read by the vertical pass). -/
def flatGetF (w h : ℤ) (t : ℤ → ℤ → FV) (k : ℤ) : FV :=
  if 0 ≤ k ∧ k < w * h then t (k / w) (k % w) else none

/-- The running total of a `sum += g i` loop over `i < n` starting from
`sum = 0`, with NaN propagation. -/
def fvSum (g : ℕ → FV) : ℕ → FV
  | 0 => some 0
  | n + 1 => fadd (fvSum g n) (g n)

/-- The accumulator of the horizontal pass of `boxBlur` just before
emitting column `x` of row `y`: at `x = 0` the pre-fill adds `radius`
copies of `source[rowStart]` and the unclamped flat reads
`source[rowStart + i]` for `i ≤ radius` (these run past the row — or past
the buffer, giving NaN — when `radius ≥ w`); each slide then subtracts the
leaving sample at `max(0, x - radius)` and adds the entering sample at
`min(w-1, x + radius + 1)`, both clamped within the row by the source. -/
def slideH (w h : ℤ) (radius : ℕ) (src : Plane) (y : ℤ) : ℕ → FV
  | 0 => fadd (fvSum (fun _ => flatGet w h src (y * w)) radius)
      (fvSum (fun i => flatGet w h src (y * w + i)) (radius + 1))
  | x + 1 => fadd (fsub (slideH w h radius src y x)
      (some (src y (max 0 ((x : ℤ) - radius)))))
      (some (src y (min (w - 1) ((x : ℤ) + radius + 1))))

/-- The accumulator of the vertical pass: the pre-fill adds `radius`
copies of `temp[x]` and the unclamped flat reads `temp[x + i*w]` for
`i ≤ radius` (past the buffer, giving NaN, when `radius ≥ h`), then
clamped slides as in the source. -/
def slideV (w h : ℤ) (radius : ℕ) (t : ℤ → ℤ → FV) (x : ℤ) : ℕ → FV
  | 0 => fadd (fvSum (fun _ => flatGetF w h t x) radius)
      (fvSum (fun i => flatGetF w h t (x + i * w)) (radius + 1))
  | y + 1 => fadd (fsub (slideV w h radius t x y)
      (t (max 0 ((y : ℤ) - radius)) x))
      (t (min (h - 1) ((y : ℤ) + radius + 1)) x)

/-- Exact model of the horizontal pass of `boxBlur`, including the
unclamped pre-fill: the accumulator value at column `x` divided by the
window size. -/
def boxBlurHFlat (w h : ℤ) (radius : ℕ) (src : Plane) : ℤ → ℤ → FV :=
  fun y x => fdiv (slideH w h radius src y x.toNat) ((2 * radius + 1 : ℕ) : ℚ)

/-- Exact model of the vertical pass of `boxBlur`. -/
def boxBlurVFlat (w h : ℤ) (radius : ℕ) (t : ℤ → ℤ → FV) : ℤ → ℤ → FV :=
  fun y x => fdiv (slideV w h radius t x y.toNat) ((2 * radius + 1 : ℕ) : ℚ)

/-- Exact model of `boxBlur(source, w, h, radius)`: a copy for
`radius < 1`, otherwise the horizontal then vertical accumulator passes
with the source's out-of-bounds pre-fill reads kept NaN-producing. -/
def boxBlurFlat (w h : ℤ) (radius : ℕ) (src : Plane) : ℤ → ℤ → FV :=
  if radius < 1 then fun y x => some (src y x)
  else boxBlurVFlat w h radius (boxBlurHFlat w h radius src)

/-- Luma extraction (step 2 of `generateStencil`): Rec. 601 weights
`0.299 R + 0.587 G + 0.114 B`. -/
def lumaOf (img : ℤ → ℤ → Pixel) : Plane :=
  fun y x =>
    ((img y x).1 : ℚ) * 0.299 + ((img y x).2.1 : ℚ) * 0.587 + ((img y x).2.2 : ℚ) * 0.114

/-- Step 3 of `generateStencil` (detail level pre-processing): negative
`noiseReduction` applies an unsharp mask of strength `|level| * 0.5`
(radius-1 box blur, then `clamp(luma + detail*strength, 0, 255)` via
`Math.min/Math.max`); positive `noiseReduction` pre-blurs, but only in
SOLID mode; otherwise the luma passes through. -/
def detailFilter (w h : ℤ) (noiseReduction : ℤ) (mode : StencilMode) (luma : Plane) : Plane :=
  if noiseReduction < 0 then
    let strength : ℚ := (noiseReduction.natAbs : ℚ) * 0.5
    let blurForSharpen := boxBlur w h 1 luma
    fun y x => min 255 (max 0 (luma y x + (luma y x - blurForSharpen y x) * strength))
  else if 0 < noiseReduction ∧ mode = StencilMode.SOLID then
    boxBlur w h noiseReduction.toNat luma
  else
    luma

/-- SOLID-mode adaptive thresholding (step 4 of `generateStencil`):
`localMean = boxBlur(processedLuma, 16)`, `bias = (255 - threshold)/5`,
ink (0) where `processedLuma < localMean - bias`, else blank (255). -/
def solidOutput (w h : ℤ) (threshold : ℚ) (processedLuma : Plane) : Plane :=
  let localMean := boxBlur w h 16 processedLuma
  let bias := (255 - threshold) / 5
  fun y x => if processedLuma y x < localMean y x - bias then 0 else 255

/-- HOLLOW-mode difference of Gaussians (step 4 of `generateStencil`):
`effectiveBlur = max(0, noiseReduction)`, `r1 = max(0.5, effectiveBlur*0.8)`,
`r2 = r1*2.5`, blurs at `ceil r1` and `ceil r2`,
`cutoff = 2 + ((255-threshold)/255)*10`, ink (0) where
`blur1 - blur2 < -cutoff`, else blank (255). -/
def dogOutput (w h : ℤ) (threshold : ℚ) (noiseReduction : ℤ) (processedLuma : Plane) : Plane :=
  let effectiveBlur : ℤ := max 0 noiseReduction
  let r1 : ℚ := max 0.5 ((effectiveBlur : ℚ) * 0.8)
  let r2 : ℚ := r1 * 2.5
  let blur1 := boxBlur w h ⌈r1⌉.toNat processedLuma
  let blur2 := boxBlur w h ⌈r2⌉.toNat processedLuma
  let sensitivity := (255 - threshold) / 255
  let cutoff := 2 + sensitivity * 10
  fun y x => if blur1 y x - blur2 y x < -cutoff then 0 else 255

/-- One morphology pass (step 5 of `generateStencil`), reading the whole
source buffer and writing the destination pointwise; 4-neighbour taps that
fall outside the image read 255 in the dilation branch and 0 in the
erosion branch, exactly as the `y > 0 ? src[idx-w] : 255` (resp. `: 0`)
expressions of the source. -/
def morphPass (w h : ℤ) (isDilate : Bool) (src : Plane) : Plane :=
  fun y x =>
    let val := src y x
    if isDilate then
      if val > 128 then
        let n := if y > 0 then src (y - 1) x else 255
        let s := if y < h - 1 then src (y + 1) x else 255
        let w_pix := if x > 0 then src y (x - 1) else 255
        let e_pix := if x < w - 1 then src y (x + 1) else 255
        if n < 128 ∨ s < 128 ∨ w_pix < 128 ∨ e_pix < 128 then 0 else 255
      else 0
    else
      if val < 128 then
        let n := if y > 0 then src (y - 1) x else 0
        let s := if y < h - 1 then src (y + 1) x else 0
        let w_pix := if x > 0 then src y (x - 1) else 0
        let e_pix := if x < w - 1 then src y (x + 1) else 0
        if n > 128 ∨ s > 128 ∨ w_pix > 128 ∨ e_pix > 128 then 255 else 0
      else 255

/-- The morphology stage: no passes when `thickness = 0`; otherwise
`min(|thickness|, 15)` double-buffered passes of `morphPass`, dilating when
`thickness > 0` and eroding otherwise (the ping-pong buffer selection of
the source is exactly function iteration). -/
def morphology (w h : ℤ) (thickness : ℤ) (m : Plane) : Plane :=
  if thickness = 0 then m
  else (morphPass w h (thickness > 0))^[min thickness.natAbs 15] m

/-- The full stencil-path map (steps 2–5 of `generateStencil` for the
SOLID and HOLLOW modes): luma extraction, detail filter, binarization
selected by mode, then morphology.  This is the `finalMap` written back to
the canvas before page composition. -/
def stencilMap (w h : ℤ) (s : StencilSettings) (img : ℤ → ℤ → Pixel) : Plane :=
  let luma := lumaOf img
  let processedLuma := detailFilter w h s.noiseReduction s.mode luma
  let output :=
    if s.mode = StencilMode.SOLID then solidOutput w h s.threshold processedLuma
    else dogOutput w h s.threshold s.noiseReduction processedLuma
  morphology w h s.thickness output

/-- The exact weighted sum computed by `convolve` for one channel at one
destination pixel: kernel side length `sqrt(matrix.length)`, centre offset
`half = side/2`, out-of-bounds taps skipped (zero contribution, not
clamped). -/
def convolveAt (matrix : List ℚ) (w h : ℤ) (c : ℤ → ℤ → ℚ) (y x : ℤ) : ℚ :=
  let side : ℕ := Nat.sqrt matrix.length
  let half : ℤ := (side : ℤ) / 2
  ∑ cy ∈ Finset.range side, ∑ cx ∈ Finset.range side,
    let scy := y + (cy : ℤ) - half
    let scx := x + (cx : ℤ) - half
    if 0 ≤ scy ∧ scy < h ∧ 0 ≤ scx ∧ scx < w then
      matrix.getD (cy * side + cx) 0 * c scy scx
    else 0

/-- One channel of `convolve(data, w, h, matrix)`: the exact weighted sum,
then `clamp(·, 0, 255)` and the `Uint8ClampedArray` store. -/
def convolveCh (matrix : List ℚ) (w h : ℤ) (c : ℤ → ℤ → ℕ) : ℤ → ℤ → ℕ :=
  fun y x => u8store (convolveAt matrix w h (fun u v => ((c u v : ℕ) : ℚ)) y x)

/-- `convolve` applied to a full raster: R, G and B are convolved
independently from a snapshot of the source (`src = new
Uint8ClampedArray(data)`); alpha is untouched. -/
def convolveRGB (matrix : List ℚ) (w h : ℤ) (img : ℤ → ℤ → Pixel) : ℤ → ℤ → Pixel :=
  fun y x =>
    (convolveCh matrix w h (fun u v => (img u v).1) y x,
     convolveCh matrix w h (fun u v => (img u v).2.1) y x,
     convolveCh matrix w h (fun u v => (img u v).2.2) y x)

/-- The realism sharpening kernel `[0,-s,0, -s,4s+1,-s, 0,-s,0]` built in
`generateStencil` from `settings.sharpness`. -/
def sharpenKernel (s : ℚ) : List ℚ :=
  [0, -s, 0,
   -s, 4 * s + 1, -s,
   0, -s, 0]

/-- The per-pixel smart-vibrance step of the REALISM branch of
`generateStencil` in `src/utils/imageProcessor.ts`: saturation
`sat = (max-min)/max` (0 when `max = 0`), boost
`strength*(1 - sat^2)` for non-negative strength and `strength` otherwise,
re-mix around Rec. 601 gray, an extra contrast pop when `strength > 0`,
then `clamp(·,0,255)` and the `Uint8ClampedArray` store. -/
def satPixel (strength : ℚ) (px : Pixel) : Pixel :=
  let r : ℚ := px.1
  let g : ℚ := px.2.1
  let b : ℚ := px.2.2
  let mx := max r (max g b)
  let mn := min r (min g b)
  let rng := mx - mn
  let sat := if mx = 0 then 0 else rng / mx
  let boost := if 0 ≤ strength then strength * (1 - sat ^ 2) else strength
  let gray := r * 0.299 + g * 0.587 + b * 0.114
  let rNew := gray + (r - gray) * (1 + boost)
  let gNew := gray + (g - gray) * (1 + boost)
  let bNew := gray + (b - gray) * (1 + boost)
  if 0 < strength then
    let contrastBoost := 1.05 + strength * 0.02
    (u8store (clamp ((rNew - 128) * contrastBoost + 128) 0 255),
     u8store (clamp ((gNew - 128) * contrastBoost + 128) 0 255),
     u8store (clamp ((bNew - 128) * contrastBoost + 128) 0 255))
  else
    (u8store (clamp rNew 0 255), u8store (clamp gNew 0 255), u8store (clamp bNew 0 255))

/-- The REALISM early-return branch of `generateStencil` in
`src/utils/imageProcessor.ts` (lines 149–233): the smart-vibrance loop
when `saturation` (defaulting to 100 when undefined) differs from 100,
then the sharpen convolution when `sharpness > 0`.  Note that this
function reads only `saturation` and `sharpness` from the settings: no
`brilliance` processing exists in this file. -/
def realismApply (s : StencilSettings) (w h : ℤ) (img : ℤ → ℤ → Pixel) : ℤ → ℤ → Pixel :=
  let saturationSetting := s.saturation.getD 100
  let afterSat :=
    if saturationSetting ≠ 100 then
      fun y x => satPixel ((saturationSetting - 100) / 100) (img y x)
    else img
  if 0 < s.sharpness.getD 0 then
    convolveRGB (sharpenKernel (s.sharpness.getD 0)) w h afterSat
  else afterSat

/-- One image-draw command issued by the page composer: the destination
rectangle passed to `drawImage` on the final A4 canvas, plus the optional
dimension label (value in inches, label x, label y) drawn by `fillText`. -/
structure DrawCmd where
  x : ℚ
  y : ℚ
  w : ℚ
  h : ℚ
  label : Option (ℚ × ℚ × ℚ)
deriving DecidableEq, Repr

/-- The grid layout chosen by `finishProcessing` from the variant count:
3 → 1×3, 6 → 2×3, anything else → 3×3 (columns, rows). -/
def gridLayout (count : ℕ) : ℕ × ℕ :=
  if count = 3 then (1, 3)
  else if count = 6 then (2, 3)
  else (3, 3)

/-- The multi-size branch of `finishProcessing`: `count =
variantCount || 9` (a JavaScript falsy test, so only 0 falls back to 9),
grid layout from `gridLayout`, and for each `i < count` one draw command
whose physical size interpolates `minSize + (maxSize-minSize)/(count-1) * i`
inches at 300 DPI on the image's longer side, centred in its grid cell on
the 2480×3508 page, with the optional dimension label placed below the
image or pinned to the cell bottom when it would overflow. -/
def multiSizePage (s : StencilSettings) (w h : ℚ) : List DrawCmd :=
  let count := if s.variantCount = 0 then 9 else s.variantCount
  let cr := gridLayout count
  let cols := cr.1
  let rows := cr.2
  let cellW : ℚ := 2480 / (cols : ℚ)
  let cellH : ℚ := 3508 / (rows : ℚ)
  let aspect := w / h
  (List.range count).map fun (i : ℕ) =>
    let targetSizeInches := s.minSize + ((s.maxSize - s.minSize) / ((count : ℚ) - 1)) * (i : ℚ)
    let targetLongestSide := targetSizeInches * 300
    let drawW := if h ≤ w then targetLongestSide else targetLongestSide * aspect
    let drawH := if h ≤ w then targetLongestSide / aspect else targetLongestSide
    let col := i % cols
    let row := i / cols
    let cx := (col : ℚ) * cellW + cellW / 2
    let cy := (row : ℚ) * cellH + cellH / 2
    let label :=
      if s.showDimensions then
        let labelY := cy + drawH / 2 + 50
        if labelY < ((row : ℚ) + 1) * cellH then
          some (targetSizeInches, cx, labelY)
        else
          some (targetSizeInches, cx, ((row : ℚ) + 1) * cellH - 20)
      else none
    ⟨cx - drawW / 2, cy - drawH / 2, drawW, drawH, label⟩

/-- The grid of valid pixel coordinates `(y, x)` of a `w × h` buffer, used
to state totals/means over an image. -/
def gridIdx (w h : ℤ) : Finset (ℤ × ℤ) :=
  Finset.Icc 0 (h - 1) ×ˢ Finset.Icc 0 (w - 1)

/-- Zero extension of a channel plane outside the valid pixel grid: the
value of a tap when in bounds, and the zero contribution of a skipped
out-of-bounds tap otherwise.  `convolveAt` is literally a kernel-weighted
sum of `zext` samples. -/
def zext (w h : ℤ) (c : ℤ → ℤ → ℚ) : ℤ → ℤ → ℚ :=
  fun y x => if 0 ≤ y ∧ y < h ∧ 0 ≤ x ∧ x < w then c y x else 0

/-! Helper lemmas shared by the claim theorems. -/

/-- The multi-size page always issues exactly `variantCount || 9` draw
commands. -/
theorem multiSizePage_length (s : StencilSettings) (w h : ℚ) :
    (multiSizePage s w h).length = if s.variantCount = 0 then 9 else s.variantCount := by
  unfold multiSizePage
  dsimp only
  rw [List.length_map, List.length_range]

/-- Every value written by a morphology pass is 0 or 255, whatever the
source buffer holds. -/
theorem morphPass_two_valued (w h : ℤ) (b : Bool) (src : Plane) (y x : ℤ) :
    morphPass w h b src y x = 0 ∨ morphPass w h b src y x = 255 := by
  unfold morphPass
  dsimp only
  cases b
  all_goals split_ifs <;> first | exact Or.inl rfl | exact Or.inr rfl

/-- The morphology stage preserves the two-valued domain `{0, 255}`. -/
theorem morphology_two_valued (w h t : ℤ) (m : Plane)
    (hm : ∀ y x, m y x = 0 ∨ m y x = 255) (y x : ℤ) :
    morphology w h t m y x = 0 ∨ morphology w h t m y x = 255 := by
  unfold morphology
  by_cases ht : t = 0
  · simp only [ht, if_pos rfl]
    exact hm y x
  · rw [if_neg ht]
    have hpos : 1 ≤ min t.natAbs 15 := by
      have := Int.natAbs_pos.mpr ht
      omega
    obtain ⟨j, hj⟩ : ∃ j, min t.natAbs 15 = j + 1 := ⟨min t.natAbs 15 - 1, by omega⟩
    rw [hj, Function.iterate_succ_apply']
    exact morphPass_two_valued w h _ _ y x

/-- A box-blur window average of a constant plane is that constant. -/
theorem boxBlurH_const (w : ℤ) (r : ℕ) (c : ℚ) :
    boxBlurH w r (fun _ _ => c) = fun _ _ => c := by
  funext y x
  unfold boxBlurH
  have hn : ((2 * r + 1 : ℕ) : ℚ) ≠ 0 := by positivity
  rw [Finset.sum_const, Finset.card_range, nsmul_eq_mul, mul_div_cancel_left₀ _ hn]

/-- Vertical counterpart of `boxBlurH_const`. -/
theorem boxBlurV_const (h : ℤ) (r : ℕ) (c : ℚ) :
    boxBlurV h r (fun _ _ => c) = fun _ _ => c := by
  funext y x
  unfold boxBlurV
  have hn : ((2 * r + 1 : ℕ) : ℚ) ≠ 0 := by positivity
  rw [Finset.sum_const, Finset.card_range, nsmul_eq_mul, mul_div_cancel_left₀ _ hn]

/-- `boxBlur` maps a constant plane to itself, for every radius. -/
theorem boxBlur_const (w h : ℤ) (r : ℕ) (c : ℚ) :
    boxBlur w h r (fun _ _ => c) = fun _ _ => c := by
  unfold boxBlur
  split
  · rfl
  · rw [boxBlurH_const, boxBlurV_const]

/-- The detail filter at detail level 0 is the identity (both branch
conditions are false). -/
theorem detailFilter_zero (w h : ℤ) (mode : StencilMode) (lum : Plane) :
    detailFilter w h 0 mode lum = lum := by
  unfold detailFilter
  norm_num

/-- In HOLLOW mode the detail filter maps a constant luma plane with value
in `[0, 255]` to itself for every detail level: the unsharp mask adds
`(c - c) * strength = 0` and the clamp is the identity on `[0, 255]`,
while positive levels do not pre-blur outside SOLID mode. -/
theorem detailFilter_const_hollow (w h : ℤ) (d : ℤ) (c : ℚ) (h0 : 0 ≤ c) (h255 : c ≤ 255) :
    detailFilter w h d StencilMode.HOLLOW (fun _ _ => c) = fun _ _ => c := by
  unfold detailFilter
  split
  · funext y x
    dsimp only
    rw [boxBlur_const]
    have harg : c + (c - c) * ((d.natAbs : ℚ) * 0.5) = c := by ring
    rw [harg, max_eq_right h0, min_eq_right h255]
  · split
    · rename_i hcond
      exact absurd hcond.2 (by decide)
    · rfl

/-- The luma plane of a constant raster is the constant Rec. 601 luma of
its pixel. -/
theorem lumaOf_const (px : Pixel) :
    lumaOf (fun _ _ => px) =
      fun _ _ => (px.1 : ℚ) * 0.299 + (px.2.1 : ℚ) * 0.587 + (px.2.2 : ℚ) * 0.114 := rfl

/-- An average of `2n+1` window samples lies between any bounds enclosing
all the samples. -/
theorem window_avg_bounds (n : ℕ) (g : ℕ → ℚ) (lo hi : ℚ)
    (hg : ∀ i ∈ Finset.range (2 * n + 1), lo ≤ g i ∧ g i ≤ hi) :
    lo ≤ (∑ i ∈ Finset.range (2 * n + 1), g i) / ((2 * n + 1 : ℕ) : ℚ) ∧
      (∑ i ∈ Finset.range (2 * n + 1), g i) / ((2 * n + 1 : ℕ) : ℚ) ≤ hi := by
  have hpos : (0 : ℚ) < ((2 * n + 1 : ℕ) : ℚ) := by positivity
  constructor
  · rw [le_div_iff₀ hpos]
    calc lo * ((2 * n + 1 : ℕ) : ℚ) = ∑ _i ∈ Finset.range (2 * n + 1), lo := by
          rw [Finset.sum_const, Finset.card_range, nsmul_eq_mul, mul_comm]
      _ ≤ ∑ i ∈ Finset.range (2 * n + 1), g i :=
          Finset.sum_le_sum fun i hi' => (hg i hi').1
  · rw [div_le_iff₀ hpos]
    calc (∑ i ∈ Finset.range (2 * n + 1), g i)
        ≤ ∑ _i ∈ Finset.range (2 * n + 1), hi :=
          Finset.sum_le_sum fun i hi' => (hg i hi').2
      _ = hi * ((2 * n + 1 : ℕ) : ℚ) := by
          rw [Finset.sum_const, Finset.card_range, nsmul_eq_mul, mul_comm]

/-- `clampIdx` produces a valid index whenever the dimension is
positive. -/
theorem clampIdx_valid (n i : ℤ) (hn : 1 ≤ n) : 0 ≤ clampIdx n i ∧ clampIdx n i < n := by
  unfold clampIdx
  omega

/-- Decoding a flat buffer index `row * w + col` back into its row and
column. -/
theorem flatIdx_decode (w row col : ℤ) (hc0 : 0 ≤ col) (hcw : col < w) :
    (row * w + col) / w = row ∧ (row * w + col) % w = col := by
  have hw : w ≠ 0 := by omega
  constructor
  · rw [show row * w + col = col + row * w from by ring, Int.add_mul_ediv_right col row hw,
      Int.ediv_eq_zero_of_lt hc0 hcw, zero_add]
  · rw [show row * w + col = col + w * row from by ring, Int.add_mul_emod_self_left,
      Int.emod_eq_of_lt hc0 hcw]

/-- A flat read at a valid `(row, col)` position returns the stored
sample. -/
theorem flatGet_eq (w h : ℤ) (src : Plane) (row col : ℤ)
    (hr0 : 0 ≤ row) (hrh : row < h) (hc0 : 0 ≤ col) (hcw : col < w) :
    flatGet w h src (row * w + col) = some (src row col) := by
  have hw : 0 < w := by omega
  have h1 : row * w ≤ (h - 1) * w := mul_le_mul_of_nonneg_right (by omega) (by omega)
  have hk0 : 0 ≤ row * w + col := by
    have := mul_nonneg hr0 hw.le
    omega
  have hkh : row * w + col < w * h := by nlinarith
  unfold flatGet
  rw [if_pos ⟨hk0, hkh⟩, (flatIdx_decode w row col hc0 hcw).1,
    (flatIdx_decode w row col hc0 hcw).2]

/-- `flatGet_eq` for a buffer of `FV` entries. -/
theorem flatGetF_eq (w h : ℤ) (t : ℤ → ℤ → FV) (row col : ℤ)
    (hr0 : 0 ≤ row) (hrh : row < h) (hc0 : 0 ≤ col) (hcw : col < w) :
    flatGetF w h t (row * w + col) = t row col := by
  have hw : 0 < w := by omega
  have h1 : row * w ≤ (h - 1) * w := mul_le_mul_of_nonneg_right (by omega) (by omega)
  have hk0 : 0 ≤ row * w + col := by
    have := mul_nonneg hr0 hw.le
    omega
  have hkh : row * w + col < w * h := by nlinarith
  unfold flatGetF
  rw [if_pos ⟨hk0, hkh⟩, (flatIdx_decode w row col hc0 hcw).1,
    (flatIdx_decode w row col hc0 hcw).2]

/-- An accumulator loop whose every read is a number totals to the sum of
those numbers. -/
theorem fvSum_some (a : ℕ → ℚ) (g : ℕ → FV) (n : ℕ)
    (hg : ∀ i, i < n → g i = some (a i)) :
    fvSum g n = some (∑ i ∈ Finset.range n, a i) := by
  induction n with
  | zero => simp [fvSum]
  | succ n ih =>
    rw [fvSum, ih (fun i hi => hg i (by omega)), hg n (by omega)]
    simp [fadd, Finset.sum_range_succ]

/-- The pre-fill total (`radius` edge copies plus the first
`radius + 1` samples) equals the clamped window sum at position 0. -/
theorem window_base (n : ℤ) (r : ℕ) (hrn : (r : ℤ) < n) (v : ℤ → ℚ) :
    (∑ _i ∈ Finset.range r, v 0) + ∑ i ∈ Finset.range (r + 1), v (i : ℤ)
      = ∑ i ∈ Finset.range (2 * r + 1), v (clampIdx n ((0 : ℤ) - r + i)) := by
  have hsplit : 2 * r + 1 = (r + 1) + r := by omega
  conv_rhs => rw [hsplit, Finset.sum_range_add]
  have h1 : ∀ i ∈ Finset.range (r + 1),
      v (clampIdx n ((0 : ℤ) - r + i)) = v 0 := by
    intro i hi
    simp only [Finset.mem_range] at hi
    congr 1
    unfold clampIdx
    omega
  have h2 : ∀ i ∈ Finset.range r,
      v (clampIdx n ((0 : ℤ) - r + ((r + 1 + i : ℕ) : ℤ))) = v ((i : ℤ) + 1) := by
    intro i hi
    simp only [Finset.mem_range] at hi
    congr 1
    unfold clampIdx
    push_cast
    omega
  rw [Finset.sum_congr rfl h1, Finset.sum_congr rfl h2,
    Finset.sum_range_succ' (fun i => v (i : ℤ)) r]
  have h3 : ∀ i ∈ Finset.range r, v (((i + 1 : ℕ)) : ℤ) = v ((i : ℤ) + 1) := by
    intro i _
    congr 1
  rw [Finset.sum_congr rfl h3, Finset.sum_const, Finset.sum_const, Finset.card_range,
    Finset.card_range, nsmul_eq_mul, nsmul_eq_mul]
  push_cast
  ring

/-- Sliding the clamped window one position to the right subtracts the
leaving sample and adds the entering sample. -/
theorem window_step (n : ℤ) (v : ℤ → ℚ) (r : ℕ) (x : ℕ) :
    ∑ i ∈ Finset.range (2 * r + 1), v (clampIdx n (((x : ℤ) + 1) - r + i))
      = (∑ i ∈ Finset.range (2 * r + 1), v (clampIdx n ((x : ℤ) - r + i)))
        - v (clampIdx n ((x : ℤ) - r)) + v (clampIdx n ((x : ℤ) + r + 1)) := by
  have hshift : ∀ i ∈ Finset.range (2 * r + 1),
      v (clampIdx n (((x : ℤ) + 1) - r + i))
        = v (clampIdx n ((x : ℤ) - r + ((i + 1 : ℕ) : ℤ))) := by
    intro i _
    congr 2
    push_cast
    ring
  rw [Finset.sum_congr rfl hshift]
  have key : ∀ gg : ℕ → ℚ, ∑ i ∈ Finset.range (2 * r + 1), gg (i + 1)
      = (∑ i ∈ Finset.range (2 * r + 1), gg i) + gg (2 * r + 1) - gg 0 := by
    intro gg
    have h1 := Finset.sum_range_succ' gg (2 * r + 1)
    have h2 := Finset.sum_range_succ gg (2 * r + 1)
    linarith [h1, h2]
  rw [key (fun j => v (clampIdx n ((x : ℤ) - r + (j : ℤ))))]
  have hA : v (clampIdx n ((x : ℤ) - r + ((2 * r + 1 : ℕ) : ℤ)))
      = v (clampIdx n ((x : ℤ) + r + 1)) := by
    congr 2
    push_cast
    ring
  have hB : v (clampIdx n ((x : ℤ) - r + ((0 : ℕ) : ℤ)))
      = v (clampIdx n ((x : ℤ) - r)) := by
    congr 2
    push_cast
    ring
  rw [hA, hB]
  ring

/-- The horizontal accumulator at a valid column equals the clamped window
sum whenever `radius < w`: the pre-fill stays inside the row and the
invariant is maintained by every slide. -/
theorem slideH_eq (w h : ℤ) (r : ℕ) (f : Plane) (y : ℤ)
    (hy0 : 0 ≤ y) (hyh : y < h) (hrw : (r : ℤ) < w) :
    ∀ x : ℕ, (x : ℤ) < w →
      slideH w h r f y x
        = some (∑ i ∈ Finset.range (2 * r + 1), f y (clampIdx w ((x : ℤ) - r + i))) := by
  intro x
  induction x with
  | zero =>
    intro _
    rw [slideH]
    rw [fvSum_some (fun _ => f y 0) _ r (fun i _ => by
      have := flatGet_eq w h f y 0 hy0 hyh (le_refl 0) (by omega)
      simpa using this)]
    rw [fvSum_some (fun i => f y (i : ℤ)) _ (r + 1) (fun i hi =>
      flatGet_eq w h f y i hy0 hyh (by positivity) (by
        have : (i : ℤ) ≤ (r : ℤ) := by exact_mod_cast Nat.lt_succ_iff.mp hi
        omega))]
    simp only [fadd, Nat.cast_zero]
    congr 1
    exact window_base w r hrw (fun j => f y j)
  | succ x ih =>
    intro hx1
    have hx : (x : ℤ) < w := by push_cast at hx1; omega
    rw [slideH, ih hx]
    simp only [fsub, fadd]
    congr 1
    have hl : max 0 ((x : ℤ) - r) = clampIdx w ((x : ℤ) - r) := by
      unfold clampIdx
      push_cast at hx1
      omega
    have he : min (w - 1) ((x : ℤ) + r + 1) = clampIdx w ((x : ℤ) + r + 1) := by
      unfold clampIdx
      omega
    rw [hl, he]
    have hidx : ∀ i ∈ Finset.range (2 * r + 1),
        f y (clampIdx w (((x + 1 : ℕ) : ℤ) - r + i))
          = f y (clampIdx w (((x : ℤ) + 1) - r + i)) := by
      intro i _
      congr 2
    rw [Finset.sum_congr rfl hidx, window_step w (fun j => f y j) r x]

/-- The vertical accumulator at a valid row equals the clamped window sum
whenever `radius < h`, given that the `temp` buffer holds numbers on the
whole column. -/
theorem slideV_eq (w h : ℤ) (r : ℕ) (t : ℤ → ℤ → FV) (g : ℤ → ℚ) (x : ℤ)
    (hx0 : 0 ≤ x) (hxw : x < w) (hrh : (r : ℤ) < h)
    (ht : ∀ u : ℤ, 0 ≤ u → u < h → t u x = some (g u)) :
    ∀ y : ℕ, (y : ℤ) < h →
      slideV w h r t x y
        = some (∑ i ∈ Finset.range (2 * r + 1), g (clampIdx h ((y : ℤ) - r + i))) := by
  intro y
  induction y with
  | zero =>
    intro _
    rw [slideV]
    rw [fvSum_some (fun _ => g 0) _ r (fun i _ => by
      have hd := flatGetF_eq w h t 0 x (le_refl 0) (by omega) hx0 hxw
      rw [zero_mul, zero_add] at hd
      rw [hd, ht 0 (le_refl 0) (by omega)])]
    rw [fvSum_some (fun i => g (i : ℤ)) _ (r + 1) (fun i hi => by
      have hik : (i : ℤ) ≤ (r : ℤ) := by exact_mod_cast Nat.lt_succ_iff.mp hi
      have hd := flatGetF_eq w h t i x (by positivity) (by omega) hx0 hxw
      rw [show (i : ℤ) * w + x = x + (i : ℤ) * w from by ring] at hd
      rw [hd, ht i (by positivity) (by omega)])]
    simp only [fadd, Nat.cast_zero]
    congr 1
    exact window_base h r hrh g
  | succ y ih =>
    intro hy1
    have hy : (y : ℤ) < h := by push_cast at hy1; omega
    rw [slideV, ih hy]
    have hh1 : (1 : ℤ) ≤ h := by omega
    rw [ht (max 0 ((y : ℤ) - r)) (by omega) (by push_cast at hy1; omega)]
    rw [ht (min (h - 1) ((y : ℤ) + r + 1)) (by omega) (by omega)]
    simp only [fsub, fadd]
    congr 1
    have hl : max 0 ((y : ℤ) - r) = clampIdx h ((y : ℤ) - r) := by
      unfold clampIdx
      push_cast at hy1
      omega
    have he : min (h - 1) ((y : ℤ) + r + 1) = clampIdx h ((y : ℤ) + r + 1) := by
      unfold clampIdx
      omega
    rw [hl, he]
    have hidx : ∀ i ∈ Finset.range (2 * r + 1),
        g (clampIdx h (((y + 1 : ℕ) : ℤ) - r + i))
          = g (clampIdx h (((y : ℤ) + 1) - r + i)) := by
      intro i _
      congr 2
    rw [Finset.sum_congr rfl hidx, window_step h g r y]

/-- On the `radius < w` regime the exact horizontal pass agrees with the
clamped-window form at every valid pixel. -/
theorem boxBlurHFlat_eq (w h : ℤ) (r : ℕ) (f : Plane) (hrw : (r : ℤ) < w)
    (y x : ℤ) (hy0 : 0 ≤ y) (hyh : y < h) (hx0 : 0 ≤ x) (hxw : x < w) :
    boxBlurHFlat w h r f y x = some (boxBlurH w r f y x) := by
  unfold boxBlurHFlat boxBlurH
  have hxt : ((x.toNat : ℤ)) = x := Int.toNat_of_nonneg hx0
  rw [slideH_eq w h r f y hy0 hyh hrw x.toNat (by rw [hxt]; exact hxw)]
  simp [fdiv, hxt]

/-- On the `radius < w`, `radius < h` regime the exact blur agrees with
the clamped-window form at every valid pixel. -/
theorem boxBlurFlat_eq (w h : ℤ) (r : ℕ) (f : Plane) (hr1 : 1 ≤ r)
    (hrw : (r : ℤ) < w) (hrh : (r : ℤ) < h) (y x : ℤ)
    (hy0 : 0 ≤ y) (hyh : y < h) (hx0 : 0 ≤ x) (hxw : x < w) :
    boxBlurFlat w h r f y x = some (boxBlur w h r f y x) := by
  unfold boxBlurFlat boxBlur
  rw [if_neg (show ¬r < 1 by omega), if_neg (show ¬r < 1 by omega)]
  unfold boxBlurVFlat
  have hyt : ((y.toNat : ℤ)) = y := Int.toNat_of_nonneg hy0
  rw [slideV_eq w h r (boxBlurHFlat w h r f) (fun u => boxBlurH w r f u x) x hx0 hxw hrh
    (fun u hu0 huh => boxBlurHFlat_eq w h r f hrw u x hu0 huh hx0 hxw) y.toNat
    (by rw [hyt]; exact hyh)]
  unfold boxBlurV
  simp [fdiv, hyt]

/-- The clamped-window blur keeps every valid output pixel within any
bounds enclosing the valid input values. -/
theorem boxBlur_bounds (w h : ℤ) (r : ℕ) (f : Plane) (lo hi : ℚ)
    (hbnd : ∀ y x, 0 ≤ y → y < h → 0 ≤ x → x < w → lo ≤ f y x ∧ f y x ≤ hi) :
    ∀ y x, 0 ≤ y → y < h → 0 ≤ x → x < w →
      lo ≤ boxBlur w h r f y x ∧ boxBlur w h r f y x ≤ hi := by
  intro y x hy0 hyh hx0 hxw
  have hw : 1 ≤ w := by omega
  have hh : 1 ≤ h := by omega
  unfold boxBlur
  split
  · exact hbnd y x hy0 hyh hx0 hxw
  · unfold boxBlurV
    apply window_avg_bounds
    intro i _
    unfold boxBlurH
    apply window_avg_bounds
    intro j _
    exact hbnd _ _ (clampIdx_valid h _ hh).1 (clampIdx_valid h _ hh).2
      (clampIdx_valid w _ hw).1 (clampIdx_valid w _ hw).2

/-! Claim theorems. -/

/-- C1 (amended): the REALISM branch of `generateStencil` in
`src/utils/imageProcessor.ts` never reads the `brilliance` setting, so its
output is identical under any change of `brilliance`; the brilliance tone
curve of the specification is not applied by this processor. -/
theorem realism_ignores_brilliance (s : StencilSettings) (b : Option ℚ) (w h : ℤ)
    (img : ℤ → ℤ → Pixel) :
    realismApply { s with brilliance := b } w h img = realismApply s w h img := rfl

/-- C1 (counterexample): a settings record with `brilliance = 50 ≠ 0`
whose REALISM output on an image of non-trivial luma is pixel-identical to
the `brilliance = 0` output, refuting the claim that the pipeline applies
the brilliance tone curve and that the outputs differ. -/
theorem realism_brilliance_counterexample :
    realismApply
        ⟨223, 0, 0, StencilMode.REALISM, false, false, 9, 1.5, 3.5, true,
         none, none, none, none, some 50⟩ 1 1 (fun _ _ => (100, 150, 200))
      = realismApply
        ⟨223, 0, 0, StencilMode.REALISM, false, false, 9, 1.5, 3.5, true,
         none, none, none, none, some 0⟩ 1 1 (fun _ _ => (100, 150, 200))
    ∧ lumaOf (fun _ _ => (100, 150, 200)) 0 0 ≠ 0 := by
  refine ⟨rfl, ?_⟩
  norm_num [lumaOf]

/-- C2 (amended): for a variant count other than 3 and 6 the grid layout
falls back to the 3×3 layout used for 9 variants, but the page still draws
exactly `variantCount` variants (with `variantCount || 9` as the only
count fallback), so only the layout — not the whole page — matches the
9-variant run. -/
theorem variantCount_fallback (c : ℕ) (hc3 : c ≠ 3) (hc6 : c ≠ 6) :
    gridLayout c = gridLayout 9 ∧
    ∀ (s : StencilSettings) (w h : ℚ),
      (multiSizePage s w h).length = if s.variantCount = 0 then 9 else s.variantCount := by
  constructor
  · simp [gridLayout, hc3, hc6]
  · exact fun s w h => multiSizePage_length s w h

/-- Witness for `variantCount_fallback` at the concrete count 5. -/
theorem variantCount_fallback_witness :
    gridLayout 5 = gridLayout 9 ∧
    ∀ (s : StencilSettings) (w h : ℚ),
      (multiSizePage s w h).length = if s.variantCount = 0 then 9 else s.variantCount :=
  variantCount_fallback 5 (by decide) (by decide)

/-- C2 (counterexample): with `variantCount = 5` the composed page is not
identical to the `variantCount = 9` page (5 draw commands are issued, not
9, and the sizes interpolate over 4 steps), refuting the claim that any
count outside {3,6,9} reproduces the 9-variant page. -/
theorem variantCount_five_page_differs :
    multiSizePage
        ⟨223, 0, 0, StencilMode.HOLLOW, false, true, 5, 1, 3, false,
         none, none, none, none, none⟩ 100 100
      ≠ multiSizePage
        ⟨223, 0, 0, StencilMode.HOLLOW, false, true, 9, 1, 3, false,
         none, none, none, none, none⟩ 100 100 := by
  intro heq
  have hlen := congrArg List.length heq
  rw [multiSizePage_length, multiSizePage_length] at hlen
  norm_num at hlen

/-- C6: the morphology pass count is `min(|thickness|, 15)`, so a run with
`thickness = 20` produces exactly the same output as a run with
`thickness = 15` on every input map. -/
theorem morphology_thickness_cap (w h : ℤ) (m : Plane) :
    morphology w h 20 m = morphology w h 15 m := rfl

/-- C9: both binarizers emit only the values 0 and 255, every morphology
pass writes only 0 and 255, and hence the final stencil map before page
composition holds only values in `{0, 255}` in the SOLID and HOLLOW
modes. -/
theorem binary_domain_invariant :
    (∀ (w h : ℤ) (t : ℚ) (lum : Plane) (y x : ℤ),
        solidOutput w h t lum y x = 0 ∨ solidOutput w h t lum y x = 255) ∧
    (∀ (w h : ℤ) (t : ℚ) (d : ℤ) (lum : Plane) (y x : ℤ),
        dogOutput w h t d lum y x = 0 ∨ dogOutput w h t d lum y x = 255) ∧
    (∀ (w h : ℤ) (b : Bool) (src : Plane) (y x : ℤ),
        morphPass w h b src y x = 0 ∨ morphPass w h b src y x = 255) ∧
    (∀ (w h : ℤ) (s : StencilSettings) (img : ℤ → ℤ → Pixel) (y x : ℤ),
        s.mode = StencilMode.SOLID ∨ s.mode = StencilMode.HOLLOW →
        stencilMap w h s img y x = 0 ∨ stencilMap w h s img y x = 255) := by
  refine ⟨?_, ?_, morphPass_two_valued, ?_⟩
  · intro w h t lum y x
    unfold solidOutput
    try dsimp only
    split
    · exact Or.inl rfl
    · exact Or.inr rfl
  · intro w h t d lum y x
    unfold dogOutput
    try dsimp only
    split
    · exact Or.inl rfl
    · exact Or.inr rfl
  · intro w h s img y x _
    unfold stencilMap
    try dsimp only
    apply morphology_two_valued
    intro y' x'
    split
    · unfold solidOutput
      try dsimp only
      split
      · exact Or.inl rfl
      · exact Or.inr rfl
    · unfold dogOutput
      try dsimp only
      split
      · exact Or.inl rfl
      · exact Or.inr rfl

/-- Witness for `binary_domain_invariant`: the final conjunct instantiated
at a concrete SOLID-mode run on a 1×1 raster. -/
theorem binary_domain_invariant_witness :
    stencilMap 1 1
        ⟨223, 0, 0, StencilMode.SOLID, false, false, 9, 1.5, 3.5, true,
         none, none, none, none, none⟩ (fun _ _ => (10, 20, 30)) 0 0 = 0 ∨
    stencilMap 1 1
        ⟨223, 0, 0, StencilMode.SOLID, false, false, 9, 1.5, 3.5, true,
         none, none, none, none, none⟩ (fun _ _ => (10, 20, 30)) 0 0 = 255 :=
  binary_domain_invariant.2.2.2 1 1 _ _ 0 0 (Or.inl rfl)

/-- C10: a dilation pass keeps every ink pixel (`value < 128` becomes 0)
and an erosion pass keeps every blank pixel (`value ≥ 128` becomes
255). -/
theorem morphPass_direction_monotone (w h : ℤ) (src : Plane) (y x : ℤ) :
    (src y x < 128 → morphPass w h true src y x = 0) ∧
    (128 ≤ src y x → morphPass w h false src y x = 255) := by
  constructor
  · intro hink
    have hno : ¬(src y x > 128) := not_lt.mpr hink.le
    simp [morphPass, hno]
  · intro hblank
    have hno : ¬(src y x < 128) := not_lt.mpr hblank
    simp [morphPass, hno]

/-- Witness for `morphPass_direction_monotone` on concrete all-ink and
all-blank maps. -/
theorem morphPass_direction_monotone_witness :
    morphPass 1 1 true (fun _ _ => 0) 0 0 = 0 ∧
    morphPass 1 1 false (fun _ _ => 255) 0 0 = 255 :=
  ⟨(morphPass_direction_monotone 1 1 (fun _ _ => 0) 0 0).1 (by norm_num),
   (morphPass_direction_monotone 1 1 (fun _ _ => 255) 0 0).2 (by norm_num)⟩

/-- C3: in SOLID mode with detail level 0 and threshold in `[0, 255]`, a
uniformly gray raster binarizes to the all-blank map: the radius-16 local
mean of a constant plane is that constant, `bias = (255 - threshold)/5` is
non-negative, and the strict comparison `c < c - bias` fails at every
pixel, so every output pixel is 255. -/
theorem solid_uniform_blank (w h : ℤ) (t : ℚ) (px : Pixel) (img : ℤ → ℤ → Pixel)
    (himg : img = fun _ _ => px) (ht0 : 0 ≤ t) (ht255 : t ≤ 255) (y x : ℤ) :
    solidOutput w h t (detailFilter w h 0 StencilMode.SOLID (lumaOf img)) y x = 255 := by
  subst himg
  rw [detailFilter_zero, lumaOf_const]
  unfold solidOutput
  try dsimp only
  rw [boxBlur_const]
  rw [if_neg]
  have hbias : 0 ≤ (255 - t) / 5 := by linarith
  intro hcon
  dsimp only at hcon
  linarith

/-- Witness for `solid_uniform_blank`: a 100×100 mid-gray raster at the
default threshold 223. -/
theorem solid_uniform_blank_witness :
    solidOutput 100 100 223
      (detailFilter 100 100 0 StencilMode.SOLID (lumaOf fun _ _ => (128, 128, 128))) 0 0 = 255 :=
  solid_uniform_blank 100 100 223 (128, 128, 128) _ rfl (by norm_num) (by norm_num) 0 0

/-- C4: in HOLLOW mode, a uniformly flat raster (all channels at most 255)
produces an entirely blank difference-of-Gaussians output for every
threshold in `[0, 255]` and every detail level: both blurs of a constant
plane equal that constant, so the difference is 0, and
`0 < -cutoff` is false since `cutoff = 2 + ((255 - threshold)/255)*10 ≥ 2`. -/
theorem dog_uniform_blank (w h : ℤ) (d : ℤ) (t : ℚ) (px : Pixel) (img : ℤ → ℤ → Pixel)
    (himg : img = fun _ _ => px)
    (hr : px.1 ≤ 255) (hg : px.2.1 ≤ 255) (hb : px.2.2 ≤ 255)
    (ht0 : 0 ≤ t) (ht255 : t ≤ 255) (y x : ℤ) :
    dogOutput w h t d (detailFilter w h d StencilMode.HOLLOW (lumaOf img)) y x = 255 := by
  subst himg
  rw [lumaOf_const]
  have hr' : (px.1 : ℚ) ≤ 255 := by exact_mod_cast hr
  have hg' : (px.2.1 : ℚ) ≤ 255 := by exact_mod_cast hg
  have hb' : (px.2.2 : ℚ) ≤ 255 := by exact_mod_cast hb
  have h0c : 0 ≤ (px.1 : ℚ) * 0.299 + (px.2.1 : ℚ) * 0.587 + (px.2.2 : ℚ) * 0.114 := by
    positivity
  have hc255 : (px.1 : ℚ) * 0.299 + (px.2.1 : ℚ) * 0.587 + (px.2.2 : ℚ) * 0.114 ≤ 255 := by
    nlinarith
  rw [detailFilter_const_hollow w h d _ h0c hc255]
  unfold dogOutput
  try dsimp only
  rw [boxBlur_const, boxBlur_const]
  rw [if_neg]
  intro hcon
  dsimp only at hcon
  have hsens : 0 ≤ (255 - t) / 255 := by linarith
  linarith

/-- Witness for `dog_uniform_blank`: a flat mid-gray raster, threshold
223, detail level 2. -/
theorem dog_uniform_blank_witness :
    dogOutput 100 100 223 2
      (detailFilter 100 100 2 StencilMode.HOLLOW (lumaOf fun _ _ => (128, 128, 128))) 0 0 = 255 :=
  dog_uniform_blank 100 100 2 223 (128, 128, 128) _ rfl (by norm_num) (by norm_num)
    (by norm_num) (by norm_num) (by norm_num) 0 0

/-- C7 (amended): for every radius smaller than both the width and the
height, every in-range output value of the exact box blur is a defined
number lying within any bounds enclosing the in-range input values (in
particular within `[min input, max input]`, creating no new extrema), and
for radius < 1 the output equals the input exactly.  When the radius
reaches the width or height the source's unclamped pre-fill reads leave
the buffer and the output degrades to NaN, so the bound fails (see the
counterexample). -/
theorem boxBlurFlat_extrema_identity (w h : ℤ) (r : ℕ) (f : Plane) (lo hi : ℚ)
    (hrw : (r : ℤ) < w) (hrh : (r : ℤ) < h)
    (hbnd : ∀ y x, 0 ≤ y → y < h → 0 ≤ x → x < w → lo ≤ f y x ∧ f y x ≤ hi) :
    (∀ y x, 0 ≤ y → y < h → 0 ≤ x → x < w →
      ∃ q : ℚ, boxBlurFlat w h r f y x = some q ∧ lo ≤ q ∧ q ≤ hi) ∧
    boxBlurFlat w h 0 f = fun y x => some (f y x) := by
  constructor
  · intro y x hy0 hyh hx0 hxw
    by_cases hr : r < 1
    · have hr0 : r = 0 := by omega
      subst hr0
      refine ⟨f y x, ?_, (hbnd y x hy0 hyh hx0 hxw).1, (hbnd y x hy0 hyh hx0 hxw).2⟩
      unfold boxBlurFlat
      rw [if_pos (by norm_num)]
    · refine ⟨boxBlur w h r f y x,
        boxBlurFlat_eq w h r f (by omega) hrw hrh y x hy0 hyh hx0 hxw,
        (boxBlur_bounds w h r f lo hi hbnd y x hy0 hyh hx0 hxw).1,
        (boxBlur_bounds w h r f lo hi hbnd y x hy0 hyh hx0 hxw).2⟩
  · unfold boxBlurFlat
    rw [if_pos (by norm_num)]

/-- Witness for `boxBlurFlat_extrema_identity` on a concrete 3×3 plane
with radius 1 and bounds `[0, 10]`. -/
theorem boxBlurFlat_extrema_identity_witness :
    (∃ q : ℚ, boxBlurFlat 3 3 1 (fun _ _ => 3) 0 0 = some q ∧ 0 ≤ q ∧ q ≤ 10) ∧
    boxBlurFlat 3 3 0 (fun _ _ => (3 : ℚ)) = fun _ _ => some 3 :=
  ⟨(boxBlurFlat_extrema_identity 3 3 1 (fun _ _ => 3) 0 10 (by norm_num) (by norm_num)
      (fun _ _ _ _ _ _ => by norm_num)).1 0 0 (by norm_num) (by norm_num) (by norm_num)
      (by norm_num),
   (boxBlurFlat_extrema_identity 3 3 1 (fun _ _ => 3) 0 10 (by norm_num) (by norm_num)
      (fun _ _ _ _ _ _ => by norm_num)).2⟩

/-- C7 (counterexample): on a 1×1 plane of constant value 3 at radius 1,
the pre-fill read `source[rowStart + 1]` falls past the buffer, the
accumulator becomes NaN and the output pixel is NaN — not the value 3
that the claimed `[min input, max input] = [3, 3]` bound would force. -/
theorem boxBlurFlat_nan_counterexample :
    boxBlurFlat 1 1 1 (fun _ _ => (3 : ℚ)) 0 0 = none ∧
    boxBlurFlat 1 1 1 (fun _ _ => (3 : ℚ)) 0 0 ≠ some 3 := by
  have hnan : boxBlurFlat 1 1 1 (fun _ _ => (3 : ℚ)) 0 0 = none := rfl
  exact ⟨hnan, by rw [hnan]; simp⟩

/-- C8: with the detail-filtered luma plane and all other settings fixed,
the SOLID-mode ink set is monotone non-decreasing in the threshold: every
pixel classified ink (0) at threshold `t1` is classified ink at any
threshold `t2 ≥ t1` in `[0, 255]`, because the bias `(255 - t)/5` is
non-increasing in `t`. -/
theorem solid_threshold_monotone (w h : ℤ) (lum : Plane) (t1 t2 : ℚ) (y x : ℤ)
    (ht0 : 0 ≤ t1) (ht12 : t1 ≤ t2) (ht255 : t2 ≤ 255)
    (hink : solidOutput w h t1 lum y x = 0) :
    solidOutput w h t2 lum y x = 0 := by
  unfold solidOutput at hink ⊢
  try dsimp only at hink ⊢
  have h1 : lum y x < boxBlur w h 16 lum y x - (255 - t1) / 5 := by
    by_contra hno
    rw [if_neg hno] at hink
    norm_num at hink
  rw [if_pos (by linarith)]

/-- Concrete evaluation used by the threshold-monotonicity witness: on a
1×2 plane with a black top pixel and a white bottom pixel, the top pixel
is classified ink at threshold 200 (local mean `4080/33`, bias 11). -/
theorem solidOutput_concrete_ink :
    solidOutput 1 2 200 (fun y _ => if y = 0 then (0 : ℚ) else 255) 0 0 = 0 := by
  have hclamp1 : ∀ t : ℤ, clampIdx 1 t = 0 := by
    intro t; unfold clampIdx; omega
  have hH : ∀ y x : ℤ,
      boxBlurH 1 16 (fun y _ => if y = 0 then (0 : ℚ) else 255) y x
        = (if y = 0 then (0 : ℚ) else 255) := by
    intro y x
    unfold boxBlurH
    rw [Finset.sum_congr rfl (fun i _ => by rw [hclamp1])]
    rw [Finset.sum_const, Finset.card_range]
    by_cases hy : y = 0 <;> simp [hy, nsmul_eq_mul]
  have hv : boxBlur 1 2 16 (fun y _ => if y = 0 then (0 : ℚ) else 255) 0 0 = 4080 / 33 := by
    unfold boxBlur
    rw [if_neg (by norm_num)]
    unfold boxBlurV
    push_cast
    have hterm : ∀ i ∈ Finset.range 33,
        boxBlurH 1 16 (fun y _ => if y = 0 then (0 : ℚ) else 255) (clampIdx 2 (-16 + (i : ℤ))) 0
          = (if i ≤ 16 then (0 : ℚ) else 255) := by
      intro i hi
      rw [hH]
      have hcl : clampIdx 2 (-16 + (i : ℤ)) = if i ≤ 16 then 0 else 1 := by
        simp only [Finset.mem_range] at hi
        unfold clampIdx
        split <;> omega
      rw [hcl]
      split
      · norm_num
      · norm_num
    rw [Finset.sum_congr rfl hterm, Finset.sum_ite, Finset.sum_const, Finset.sum_const]
    have hc1 : ((Finset.range 33).filter (fun i => i ≤ 16)).card = 17 := by decide
    have hc2 : ((Finset.range 33).filter (fun i => ¬i ≤ 16)).card = 16 := by decide
    rw [hc1, hc2]
    simp [nsmul_eq_mul]
    norm_num
  unfold solidOutput
  try dsimp only
  rw [hv]
  rw [if_pos]
  norm_num

/-- Witness for `solid_threshold_monotone`: the concrete ink pixel of
`solidOutput_concrete_ink` stays ink when the threshold rises from 200 to
230. -/
theorem solid_threshold_monotone_witness :
    solidOutput 1 2 230 (fun y _ => if y = 0 then (0 : ℚ) else 255) 0 0 = 0 :=
  solid_threshold_monotone 1 2 (fun y _ => if y = 0 then (0 : ℚ) else 255) 200 230 0 0
    (by norm_num) (by norm_num) (by norm_num) solidOutput_concrete_ink

/-- The realism sharpening kernel has side 3 and centre offset 1, and each
tap of `convolveAt` is the kernel weight times the zero-extended sample. -/
theorem convolveAt_sharpen (s : ℚ) (w h : ℤ) (c : ℤ → ℤ → ℚ) (y x : ℤ) :
    convolveAt (sharpenKernel s) w h c y x =
      ∑ cy ∈ Finset.range 3, ∑ cx ∈ Finset.range 3,
        (sharpenKernel s).getD (cy * 3 + cx) 0 * zext w h c (y + cy - 1) (x + cx - 1) := by
  unfold convolveAt
  have hlen : (sharpenKernel s).length = 9 := rfl
  have hside : Nat.sqrt (sharpenKernel s).length = 3 := by rw [hlen]; norm_num
  have hhalf : ((3 : ℕ) : ℤ) / 2 = 1 := by norm_num
  simp only [hside, hhalf]
  refine Finset.sum_congr rfl fun cy _ => Finset.sum_congr rfl fun cx _ => ?_
  by_cases hin : 0 ≤ y + cy - 1 ∧ y + cy - 1 < h ∧ 0 ≤ x + cx - 1 ∧ x + cx - 1 < w
  · rw [if_pos hin]
    unfold zext
    rw [if_pos hin]
  · rw [if_neg hin]
    unfold zext
    rw [if_neg hin, mul_zero]

/-- Shifting a summation index by at most one cell does not change a row
sum of a function vanishing at the two border cells and outside the
row. -/
theorem shifted_row_sum (w : ℤ) (g : ℤ → ℚ) (d : ℤ) (hd1 : -1 ≤ d) (hd2 : d ≤ 1)
    (hg : ∀ v : ℤ, v ≤ 0 ∨ w - 1 ≤ v → g v = 0) :
    ∑ v ∈ Finset.Icc 0 (w - 1), g (v + d) = ∑ v ∈ Finset.Icc 0 (w - 1), g v := by
  have hsub : ∀ a b : ℤ, -1 ≤ a → a ≤ 1 → w - 2 ≤ b → b ≤ w →
      ∑ u ∈ Finset.Icc a b, g u = ∑ u ∈ Finset.Icc (-1) w, g u := by
    intro a b ha1 ha2 hb1 hb2
    apply Finset.sum_subset
    · intro u hu
      simp only [Finset.mem_Icc] at hu ⊢
      omega
    · intro u hu hnot
      apply hg
      simp only [Finset.mem_Icc] at hu hnot
      omega
  have hmap : ∑ u ∈ Finset.Icc (0 + d) (w - 1 + d), g u
      = ∑ v ∈ Finset.Icc 0 (w - 1), g (v + d) := by
    rw [← Finset.map_add_right_Icc, Finset.sum_map]
    simp [addRightEmbedding]
  rw [← hmap, hsub (0 + d) (w - 1 + d) (by omega) (by omega) (by omega) (by omega),
    ← hsub 0 (w - 1) (by omega) (by omega) (by omega) (by omega)]

/-- Shifting the sampling grid by at most one pixel in each direction does
not change the total of the zero-extended samples of an image whose border
frame is zero. -/
theorem shifted_grid_sum (w h : ℤ) (c : ℤ → ℤ → ℚ) (dy dx : ℤ)
    (hdy1 : -1 ≤ dy) (hdy2 : dy ≤ 1) (hdx1 : -1 ≤ dx) (hdx2 : dx ≤ 1)
    (hborder : ∀ y x : ℤ, 0 ≤ y → y < h → 0 ≤ x → x < w →
      (y = 0 ∨ y = h - 1 ∨ x = 0 ∨ x = w - 1) → c y x = 0) :
    ∑ p ∈ gridIdx w h, zext w h c (p.1 + dy) (p.2 + dx)
      = ∑ p ∈ gridIdx w h, zext w h c p.1 p.2 := by
  unfold gridIdx
  rw [Finset.sum_product, Finset.sum_product]
  have hzx : ∀ u v : ℤ, v ≤ 0 ∨ w - 1 ≤ v → zext w h c u v = 0 := by
    intro u v hv
    unfold zext
    split
    · rename_i hin
      exact hborder u v hin.1 hin.2.1 hin.2.2.1 hin.2.2.2 (by omega)
    · rfl
  have hzy : ∀ v u : ℤ, u ≤ 0 ∨ h - 1 ≤ u → zext w h c u v = 0 := by
    intro v u hu
    unfold zext
    split
    · rename_i hin
      exact hborder u v hin.1 hin.2.1 hin.2.2.1 hin.2.2.2 (by omega)
    · rfl
  have step1 : ∑ y ∈ Finset.Icc 0 (h - 1), ∑ x ∈ Finset.Icc 0 (w - 1),
      zext w h c (y + dy) (x + dx)
      = ∑ y ∈ Finset.Icc 0 (h - 1), ∑ x ∈ Finset.Icc 0 (w - 1), zext w h c (y + dy) x :=
    Finset.sum_congr rfl fun y _ =>
      shifted_row_sum w (fun v => zext w h c (y + dy) v) dx hdx1 hdx2
        (fun v hv => hzx (y + dy) v hv)
  rw [step1, Finset.sum_comm]
  have step2 : ∑ x ∈ Finset.Icc 0 (w - 1), ∑ y ∈ Finset.Icc 0 (h - 1),
      zext w h c (y + dy) x
      = ∑ x ∈ Finset.Icc 0 (w - 1), ∑ y ∈ Finset.Icc 0 (h - 1), zext w h c y x :=
    Finset.sum_congr rfl fun x _ =>
      shifted_row_sum h (fun u => zext w h c u x) dy hdy1 hdy2
        (fun u hu => hzy x u hu)
  rw [step2, Finset.sum_comm]

/-- C5 (amended): the sharpening kernel's weights sum to 1, and the exact
(pre-clamp, pre-round) convolution sums preserve the channel total — hence
the mean — over every raster whose one-pixel border frame is zero.  (With
nonzero border pixels the skipped out-of-bounds taps change the total, and
the per-pixel clamp/round to `[0,255]` changes it in general.) -/
theorem sharpen_kernel_mean (s : ℚ) (w h : ℤ) (c : ℤ → ℤ → ℚ)
    (hborder : ∀ y x : ℤ, 0 ≤ y → y < h → 0 ≤ x → x < w →
      (y = 0 ∨ y = h - 1 ∨ x = 0 ∨ x = w - 1) → c y x = 0) :
    (sharpenKernel s).sum = 1 ∧
    ∑ p ∈ gridIdx w h, convolveAt (sharpenKernel s) w h c p.1 p.2
      = ∑ p ∈ gridIdx w h, c p.1 p.2 := by
  constructor
  · unfold sharpenKernel
    simp only [List.sum_cons, List.sum_nil]
    ring
  · have hrw : ∀ p ∈ gridIdx w h, convolveAt (sharpenKernel s) w h c p.1 p.2
        = ∑ cy ∈ Finset.range 3, ∑ cx ∈ Finset.range 3,
          (sharpenKernel s).getD (cy * 3 + cx) 0
            * zext w h c (p.1 + ((cy : ℤ) - 1)) (p.2 + ((cx : ℤ) - 1)) := by
      intro p _
      rw [convolveAt_sharpen]
      refine Finset.sum_congr rfl fun cy _ => Finset.sum_congr rfl fun cx _ => ?_
      rw [add_sub_assoc, add_sub_assoc]
    rw [Finset.sum_congr rfl hrw, Finset.sum_comm]
    have hswap : ∀ cy ∈ Finset.range 3,
        ∑ p ∈ gridIdx w h, ∑ cx ∈ Finset.range 3,
          (sharpenKernel s).getD (cy * 3 + cx) 0
            * zext w h c (p.1 + ((cy : ℤ) - 1)) (p.2 + ((cx : ℤ) - 1))
        = ∑ cx ∈ Finset.range 3, (sharpenKernel s).getD (cy * 3 + cx) 0
            * ∑ p ∈ gridIdx w h, zext w h c p.1 p.2 := by
      intro cy hcy
      rw [Finset.sum_comm]
      refine Finset.sum_congr rfl fun cx hcx => ?_
      rw [← Finset.mul_sum]
      congr 1
      apply shifted_grid_sum w h c ((cy : ℤ) - 1) ((cx : ℤ) - 1)
        (by simp only [Finset.mem_range] at hcy; omega)
        (by simp only [Finset.mem_range] at hcy; omega)
        (by simp only [Finset.mem_range] at hcx; omega)
        (by simp only [Finset.mem_range] at hcx; omega)
        hborder
    rw [Finset.sum_congr rfl hswap]
    have hz : ∑ p ∈ gridIdx w h, zext w h c p.1 p.2 = ∑ p ∈ gridIdx w h, c p.1 p.2 := by
      refine Finset.sum_congr rfl fun p hp => ?_
      unfold gridIdx at hp
      rw [Finset.mem_product, Finset.mem_Icc, Finset.mem_Icc] at hp
      unfold zext
      rw [if_pos ⟨hp.1.1, by omega, hp.2.1, by omega⟩]
    simp only [hz]
    have hfactor : (∑ cy ∈ Finset.range 3, ∑ cx ∈ Finset.range 3,
          (sharpenKernel s).getD (cy * 3 + cx) 0 * (∑ p ∈ gridIdx w h, c p.1 p.2))
        = (∑ cy ∈ Finset.range 3, ∑ cx ∈ Finset.range 3,
            (sharpenKernel s).getD (cy * 3 + cx) 0) * (∑ p ∈ gridIdx w h, c p.1 p.2) := by
      rw [Finset.sum_mul]
      refine Finset.sum_congr rfl fun cy _ => ?_
      rw [Finset.sum_mul]
    have hk : ∑ cy ∈ Finset.range 3, ∑ cx ∈ Finset.range 3,
        (sharpenKernel s).getD (cy * 3 + cx) 0 = 1 := by
      norm_num [Finset.sum_range_succ, sharpenKernel, List.getD]
      ring
    rw [hfactor, hk, one_mul]

/-- Witness for `sharpen_kernel_mean`: a 3×3 channel with zero border and
an interior value 8, sharpened with `s = 1`. -/
theorem sharpen_kernel_mean_witness :
    (sharpenKernel 1).sum = 1 ∧
    ∑ p ∈ gridIdx 3 3, convolveAt (sharpenKernel 1) 3 3
        (fun y x => if y = 1 ∧ x = 1 then (8 : ℚ) else 0) p.1 p.2
      = ∑ p ∈ gridIdx 3 3, (fun y x => if y = 1 ∧ x = 1 then (8 : ℚ) else 0) p.1 p.2 :=
  sharpen_kernel_mean 1 3 3 (fun y x => if y = 1 ∧ x = 1 then (8 : ℚ) else 0)
    (fun y x hy0 hyh hx0 hxw hb => by
      have hne : ¬(y = 1 ∧ x = 1) := by omega
      simp [hne])

/-- C5 (counterexample): on a 1×1 raster with channel value 100 and
sharpness 1, the stored convolution output is 255 (all four negative taps
fall out of bounds and are skipped, and `5 * 100 = 500` clamps to 255), so
the mean channel brightness is not preserved. -/
theorem sharpen_mean_counterexample :
    (∑ p ∈ gridIdx 1 1,
        ((convolveCh (sharpenKernel 1) 1 1 (fun _ _ => 100) p.1 p.2 : ℕ) : ℚ))
      ≠ ∑ p ∈ gridIdx 1 1, (((fun (_ _ : ℤ) => (100 : ℕ)) p.1 p.2 : ℕ) : ℚ) := by
  have hgrid : gridIdx 1 1 = {((0 : ℤ), (0 : ℤ))} := by decide
  rw [hgrid, Finset.sum_singleton, Finset.sum_singleton]
  unfold convolveCh
  rw [convolveAt_sharpen]
  norm_num [zext, sharpenKernel, Finset.sum_range_succ, List.getD, u8store, clamp,
    roundHalfEven]
  rw [show Int.toNat 255 = 255 from rfl]
  norm_num

end StencilLab
